import Mathlib

/-!
Verification of the watched-state bitfield codec and delta-synchronized
library cache of `plugin.video.nas`.

The Python sources embedded here are
`resources/lib/classes/StremioLibrary.py` (BitField8, WatchedBitfield,
WatchState, StremioLibrary) and `resources/lib/apis/StremioAPI.py`
(update_data_store, set_data).  Strings are modelled as `List Char`,
`bytearray`s as `List Nat` (each element a byte value), Python `int` as
`Int`/`Nat`, and `datetime` values as integer epoch milliseconds.
Fallible Python code (statements that can raise) is modelled in the
`Except PyErr` monad.
-/

set_option maxRecDepth 10000

namespace Nas

/-- Kinds of Python exceptions the modelled code can raise.  Python raises
`ValueError` both for the component-count check and for a failed `int()`
parse; the model tags the raising site so the two are distinguishable. -/
inductive PyErr where
  | indexError
  | invalidComponents
  | intParseError
  | b64Error
deriving DecidableEq, Repr

instance {ε α : Type} [DecidableEq ε] [DecidableEq α] : DecidableEq (Except ε α) :=
  fun a b =>
    match a, b with
    | .ok x, .ok y =>
      if h : x = y then isTrue (by rw [h]) else isFalse (by intro hc; cases hc; exact h rfl)
    | .error e, .error f =>
      if h : e = f then isTrue (by rw [h]) else isFalse (by intro hc; cases hc; exact h rfl)
    | .ok _, .error _ => isFalse (by intro h; cases h)
    | .error _, .ok _ => isFalse (by intro h; cases h)

/-- Python sequence-index normalization: an index `i` into a sequence of
length `n` resolves to `i` when `0 <= i < n`, wraps to `n + i` when
`-n <= i < 0`, and is invalid (raises `IndexError`) otherwise. -/
def pyIdx (n : Nat) (i : Int) : Option Nat :=
  if 0 ≤ i ∧ i < (n : Int) then some i.toNat
  else if -(n : Int) ≤ i ∧ i < 0 then some (i + n).toNat
  else none

/-- Python `seq[i]` with wrap-around for negative indices. -/
def pyGetList {α : Type} (l : List α) (i : Int) : Option α :=
  (pyIdx l.length i).bind fun j => l[j]?

/-- Python `seq[i] = v` (index already validated by `pyIdx`). -/
def pySetList {α : Type} (l : List α) (i : Int) (v : α) : List α :=
  match pyIdx l.length i with
  | some j => l.set j v
  | none => l

/-- Modelled from the environment: `zlib.compress`.  DEFLATE is an opaque
lossless byte codec; the only properties of it the verified claims depend
on are that `decompress` inverts `compress` and that the round trip
preserves the byte count, so the codec is modelled as the identity on byte
sequences. -/
def zlibCompress (bs : List Nat) : List Nat := bs

/-- Modelled from the environment: `zlib.decompress`, inverse of
`zlibCompress` (see there). -/
def zlibDecompress (bs : List Nat) : List Nat := bs

/-- The RFC 4648 standard base64 alphabet, in index order. -/
def b64Chars : List Char :=
  ['A', 'B', 'C', 'D', 'E', 'F', 'G', 'H', 'I', 'J', 'K', 'L', 'M',
   'N', 'O', 'P', 'Q', 'R', 'S', 'T', 'U', 'V', 'W', 'X', 'Y', 'Z',
   'a', 'b', 'c', 'd', 'e', 'f', 'g', 'h', 'i', 'j', 'k', 'l', 'm',
   'n', 'o', 'p', 'q', 'r', 's', 't', 'u', 'v', 'w', 'x', 'y', 'z',
   '0', '1', '2', '3', '4', '5', '6', '7', '8', '9', '+', '/']

/-- Character of a six-bit group (only used with arguments `< 64`). -/
def b64Char (n : Nat) : Char := b64Chars.getD n '?'

/-- Index of a character in the base64 alphabet, `none` if absent. -/
def b64Index (c : Char) : Option Nat :=
  if c ∈ b64Chars then some (b64Chars.indexOf c) else none

/-- Modelled from the environment: `base64.b64encode` over the standard
alphabet with `=` padding, as a function from byte sequences to character
sequences.  Three input bytes map to four sextet characters; a final group
of one or two bytes is padded. -/
def b64encode : List Nat → List Char
  | [] => []
  | [a] => [b64Char (a / 4), b64Char (a % 4 * 16), '=', '=']
  | [a, b] => [b64Char (a / 4), b64Char (a % 4 * 16 + b / 16), b64Char (b % 16 * 4), '=']
  | a :: b :: c :: rest =>
    b64Char (a / 4) :: b64Char (a % 4 * 16 + b / 16) ::
      b64Char (b % 16 * 4 + c / 64) :: b64Char (c % 64) :: b64encode rest

/-- Modelled from the environment: `base64.b64decode`, partial inverse of
`b64encode`; returns `none` on input it cannot decode (Python raises a
`binascii.Error` there). -/
def b64decode : List Char → Option (List Nat)
  | [] => some []
  | c1 :: c2 :: c3 :: c4 :: rest =>
    if c3 = '=' ∧ c4 = '=' ∧ rest = [] then
      match b64Index c1, b64Index c2 with
      | some s1, some s2 => some [s1 * 4 + s2 / 16]
      | _, _ => none
    else if c4 = '=' ∧ rest = [] then
      match b64Index c1, b64Index c2, b64Index c3 with
      | some s1, some s2, some s3 => some [s1 * 4 + s2 / 16, s2 % 16 * 16 + s3 / 4]
      | _, _, _ => none
    else
      match b64Index c1, b64Index c2, b64Index c3, b64Index c4, b64decode rest with
      | some s1, some s2, some s3, some s4, some bs =>
        some ((s1 * 4 + s2 / 16) :: (s2 % 16 * 16 + s3 / 4) :: (s3 % 4 * 64 + s4) :: bs)
      | _, _, _, _, _ => none
  | _ => none

/-- The character of a single decimal digit. -/
def digitChar (d : Nat) : Char := Char.ofNat (48 + d)

/-- Decimal digit characters of a positive number, most significant first.
The first argument is recursion fuel, always instantiated with the number
itself. -/
def natToCharsAux : Nat → Nat → List Char
  | 0, _ => []
  | fuel + 1, n =>
    if n = 0 then [] else natToCharsAux fuel (n / 10) ++ [digitChar (n % 10)]

/-- Python `str` of a nonnegative integer. -/
def natToChars (n : Nat) : List Char :=
  if n = 0 then ['0'] else natToCharsAux n n

/-- Python `str` of an integer (an f-string `{i}` interpolation). -/
def intToChars (i : Int) : List Char :=
  if i < 0 then '-' :: natToChars (-i).toNat else natToChars i.toNat

/-- Whether a character is a decimal digit. -/
def isDigitChar (c : Char) : Bool := 48 ≤ c.toNat ∧ c.toNat ≤ 57

/-- Parse a nonempty all-digit character sequence as a number. -/
def parseNat (cs : List Char) : Option Nat :=
  if cs ≠ [] ∧ cs.all isDigitChar then
    some (cs.foldl (fun a c => a * 10 + (c.toNat - 48)) 0)
  else none

/-- Python `int(s)` (restricted to an optional leading minus followed by
decimal digits, which covers every string this code base feeds to it). -/
def parseInt (cs : List Char) : Option Int :=
  match cs with
  | '-' :: rest => (parseNat rest).map fun n => -(n : Int)
  | _ => (parseNat cs).map fun n => (n : Int)

/-- Python `s.split(":")`: the (always nonempty) list of `:`-free groups. -/
def splitColon : List Char → List (List Char)
  | [] => [[]]
  | c :: rest =>
    if c = ':' then [] :: splitColon rest
    else
      match splitColon rest with
      | [] => [[c]]
      | g :: gs => (c :: g) :: gs

/-- Python `":".join(groups)`. -/
def joinColon : List (List Char) → List Char
  | [] => []
  | [g] => g
  | g :: gs => g ++ ':' :: joinColon gs

/-- `BitField8` of `StremioLibrary.py`: a logical bit length plus a byte
buffer, bit `i` stored in byte `i / 8` under mask `1 <<< (i % 8)`. -/
structure BitField8 where
  length : Int
  values : List Nat
deriving DecidableEq, Repr

/-- `BitField8(n_size)`: `length = n_size`, `values = bytearray(ceil(n_size / 8))`. -/
def BitField8.create (n_size : Nat) : BitField8 :=
  ⟨(n_size : Int), List.replicate ((n_size + 7) / 8) 0⟩

/-- `BitField8.from_packed(compressed, length)`: decompress, take the given
logical length (or the full byte capacity when absent), and zero-extend the
buffer when the length needs more bytes than decompression produced (the
source copies the old bytes into a larger zeroed buffer, which is the same
as appending zero bytes). -/
def BitField8.from_packed (compressed : List Nat) (length? : Option Int) : BitField8 :=
  let vals := zlibDecompress compressed
  let len : Int :=
    match length? with
    | some l => l
    | none => (vals.length : Int) * 8
  let n_bytes : Int := (len + 7).fdiv 8
  if (vals.length : Int) < n_bytes then
    ⟨len, vals ++ List.replicate (n_bytes - (vals.length : Int)).toNat 0⟩
  else
    ⟨len, vals⟩

/-- `BitField8.get(i)` for an arbitrary Python `int` index: returns `False`
when the byte index is at or beyond the buffer, otherwise reads
`values[index]` with Python index semantics (negative byte indices wrap
from the end and raise `IndexError` below `-len(values)`). -/
def BitField8.get (bf : BitField8) (i : Int) : Except PyErr Bool :=
  let index := i.fdiv 8
  let bit := (i.fmod 8).toNat
  if (bf.values.length : Int) ≤ index then .ok false
  else
    match pyGetList bf.values index with
    | none => .error .indexError
    | some byte => .ok (byte &&& (1 <<< bit) != 0)

/-- `BitField8.get(i)` specialized to a nonnegative index, where it is
total (see `BitField8.get_natCast`). -/
def BitField8.getN (bf : BitField8) (i : Nat) : Bool :=
  let index := i / 8
  let bit := i % 8
  if bf.values.length ≤ index then false
  else (bf.values.getD index 0) &&& (1 <<< bit) != 0

/-- `BitField8.set(i, val)`: read-modify-write of `values[index]` with
Python index semantics; `or`s the mask in or `and`s its complement
(`x & ~mask` computed on a byte value equals `x &&& (255 ^^^ mask)` since
bytes have no bits above 7). -/
def BitField8.set (bf : BitField8) (i : Int) (val : Bool) : Except PyErr BitField8 :=
  let index := i.fdiv 8
  let bit := (i.fmod 8).toNat
  let mask := 1 <<< bit
  match pyGetList bf.values index with
  | none => .error .indexError
  | some byte =>
    let newByte := if val then byte ||| mask else byte &&& (255 ^^^ mask)
    .ok { bf with values := pySetList bf.values index newByte }

/-- Loop body of `BitField8.last_index_of`: scan indices
`n - 1, n - 2, ..., 0` for the first one whose bit equals `val`. -/
def BitField8.lastIndexAux (bf : BitField8) (val : Bool) : Nat → Int
  | 0 => -1
  | n + 1 => if bf.getN n = val then (n : Int) else BitField8.lastIndexAux bf val n

/-- `BitField8.last_index_of(val)`: `range(self.length - 1, -1, -1)` scan,
`-1` when no bit equals `val`. -/
def BitField8.last_index_of (bf : BitField8) (val : Bool) : Int :=
  BitField8.lastIndexAux bf val bf.length.toNat

/-- `BitField8.to_packed()`. -/
def BitField8.to_packed (bf : BitField8) : List Nat := zlibCompress bf.values

/-- `WatchedBitfield` of `StremioLibrary.py`: a bitfield plus the ordered
video-id list giving each bit position its identifier. -/
structure WatchedBitfield where
  bitfield : BitField8
  video_ids : List (List Char)
deriving DecidableEq, Repr

/-- Loop of `WatchedBitfield.construct_from_array`: `bitfield.set(i, bool(v))`
for each `(i, v)` in `enumerate(arr)`, starting at index `start`. -/
def setFromList (bf : BitField8) (arr : List Bool) (start : Nat) : Except PyErr BitField8 :=
  match arr with
  | [] => .ok bf
  | v :: rest => do
    let bf' ← bf.set (start : Int) v
    setFromList bf' rest (start + 1)

/-- `WatchedBitfield.construct_from_array(arr, video_ids)`. -/
def WatchedBitfield.construct_from_array (arr : List Bool) (video_ids : List (List Char)) :
    Except PyErr WatchedBitfield := do
  let bf ← setFromList (BitField8.create video_ids.length) arr 0
  pure ⟨bf, video_ids⟩

/-- Remap loop of `WatchedBitfield.construct_and_resize`: for each target
index `i` in `range(n)`, copy the source bit at `i + offset` when that
index lies in `[0, prev.length)`. -/
def remapLoop (prev : BitField8) (offset : Int) (bf : BitField8) : Nat → Except PyErr BitField8
  | 0 => .ok bf
  | m + 1 => do
    let bf' ← remapLoop prev offset bf m
    let idx_in_prev := (m : Int) + offset
    if 0 ≤ idx_in_prev ∧ idx_in_prev < prev.length then do
      let b ← prev.get idx_in_prev
      bf'.set (m : Int) b
    else pure bf'

/-- Body of `WatchedBitfield.construct_and_resize` after the wire string has
been split into anchor id, anchor length and payload: return an all-false
bitfield when the anchor is absent from `video_ids`, decode directly at
`len(video_ids)` when the anchor offset is zero, and otherwise decode at
the anchor length and remap through `remapLoop`. -/
def WatchedBitfield.resize_core (anchor_video_id : List Char) (anchor_length : Int)
    (serialized_buf : List Char) (video_ids : List (List Char)) :
    Except PyErr WatchedBitfield :=
  let anchor_video_idx : Int :=
    if anchor_video_id ∈ video_ids then (video_ids.indexOf anchor_video_id : Int) else -1
  let offset := (anchor_length - 1) - anchor_video_idx
  let anchor_not_found := anchor_video_idx = -1
  let must_shift := offset ≠ 0
  if anchor_not_found ∨ must_shift then
    let resized_buf := BitField8.create video_ids.length
    if anchor_video_idx = -1 then .ok ⟨resized_buf, video_ids⟩
    else
      match b64decode serialized_buf with
      | none => .error .b64Error
      | some decoded_buf =>
        let prev_buf := BitField8.from_packed decoded_buf (some anchor_length)
        do
          let bf ← remapLoop prev_buf offset resized_buf video_ids.length
          pure ⟨bf, video_ids⟩
  else
    match b64decode serialized_buf with
    | none => .error .b64Error
    | some decoded_buf =>
      .ok ⟨BitField8.from_packed decoded_buf (some (video_ids.length : Int)), video_ids⟩

/-- `WatchedBitfield.construct_and_resize(serialized, video_ids)`: split the
wire string on `:`, raise when fewer than three fields exist, parse the
last two fields as the anchor length (an `int()`) and the base64 payload,
rejoin the remaining fields as the anchor video id, and resize through
`WatchedBitfield.resize_core`.  The wildcard branch is unreachable: the
reverse of a list of three or more components always has two leading
elements. -/
def WatchedBitfield.construct_and_resize (serialized : List Char)
    (video_ids : List (List Char)) : Except PyErr WatchedBitfield :=
  let components := splitColon serialized
  if components.length < 3 then .error .invalidComponents
  else
    match components.reverse with
    | serialized_buf :: lenChars :: restRev =>
      match parseInt lenChars with
      | none => .error .intParseError
      | some anchor_length =>
        WatchedBitfield.resize_core (joinColon restRev.reverse) anchor_length
          serialized_buf video_ids
    | _ => .error .invalidComponents

/-- `WatchedBitfield.get(idx)` (delegation to the bitfield). -/
def WatchedBitfield.get (wb : WatchedBitfield) (idx : Int) : Except PyErr Bool :=
  wb.bitfield.get idx

/-- `WatchedBitfield.set_video(video_id, v)`: look the id up in the id
list; a missing id is silently ignored (the `except ValueError: pass`). -/
def WatchedBitfield.set_video (wb : WatchedBitfield) (video_id : List Char) (v : Bool) :
    Except PyErr WatchedBitfield :=
  if video_id ∈ wb.video_ids then do
    let bf ← wb.bitfield.set (wb.video_ids.indexOf video_id : Int) v
    pure { wb with bitfield := bf }
  else pure wb

/-- `WatchedBitfield.get_video(video_id)`: `False` for a missing id. -/
def WatchedBitfield.get_video (wb : WatchedBitfield) (video_id : List Char) :
    Except PyErr Bool :=
  if video_id ∈ wb.video_ids then
    wb.bitfield.get (wb.video_ids.indexOf video_id : Int)
  else pure false

/-- `WatchedBitfield.serialize()`: anchor at `max(0, last_index_of(True))`,
then format `"{ids[last_idx]}:{last_idx + 1}:{base64(packed)}"`; the id
indexing raises `IndexError` when the anchor index is outside the id
list. -/
def WatchedBitfield.serialize (wb : WatchedBitfield) : Except PyErr (List Char) :=
  let packed := wb.bitfield.to_packed
  let packed_str := b64encode packed
  let last_idx : Int := max 0 (wb.bitfield.last_index_of true)
  match pyGetList wb.video_ids last_idx with
  | none => .error .indexError
  | some anchor => .ok (anchor ++ ':' :: intToChars (last_idx + 1) ++ ':' :: packed_str)

/-- `WatchState` of `StremioLibrary.py`: the per-item watch counters.
`datetime` values are modelled as epoch milliseconds. -/
structure WatchState where
  lastWatched : Option Int := none
  timeWatched : Int := 0
  timeOffset : Int := 0
  overallTimeWatched : Int := 0
  timesWatched : Int := 0
  flaggedWatched : Int := 0
  duration : Int := 0
  video_id : Option (List Char) := none
  watched : Option (List Char) := none
  noNotif : Bool := false
  watched_bitfield : Option WatchedBitfield := none
deriving DecidableEq, Repr

/-- `StremioLibrary` of `StremioLibrary.py`: one library entry. -/
structure StremioLibrary where
  _id : List Char
  name : List Char := []
  type : List Char := []
  poster : List Char := []
  posterShape : List Char := []
  removed : Bool := true
  temp : Bool := true
  _ctime : Option Int := none
  _mtime : Option Int := none
  state : WatchState := {}
deriving DecidableEq, Repr

/-- `StremioLibrary._set_time(set_last_watched)`, with the current time
passed in explicitly: stamp `_mtime`, set `_ctime` if unset, and set
`state.lastWatched` when requested or still unset. -/
def StremioLibrary.set_time (lib : StremioLibrary) (now : Int) (set_last_watched : Bool) :
    StremioLibrary :=
  let lib := { lib with
    _mtime := some now
    _ctime := match lib._ctime with
      | none => some now
      | some t => some t }
  if set_last_watched ∨ lib.state.lastWatched = none then
    { lib with state := { lib.state with lastWatched := some now } }
  else lib

/-- `StremioLibrary.update_progress(progress, duration, video_id)` with the
current time passed in explicitly.  The float threshold
`duration * 0.7` (`STREMIO_WATCHED_COEFFICIENT`) is modelled exactly as the
rational `7 / 10`, i.e. the comparison `timeWatched > duration * 0.7`
becomes `10 * timeWatched > 7 * duration`. -/
def StremioLibrary.update_progress (lib : StremioLibrary) (now : Int)
    (progress duration : Int) (video_id : List Char) : Except PyErr StremioLibrary := do
  let lib := lib.set_time now true
  let st := lib.state
  let st : WatchState :=
    if st.video_id ≠ some video_id then
      { st with
        video_id := some video_id
        overallTimeWatched := st.overallTimeWatched + st.timeWatched
        timeWatched := 0
        flaggedWatched := 0 }
    else
      let time_diff := max (progress - st.timeOffset) 0
      { st with
        timeWatched := st.timeWatched + time_diff
        overallTimeWatched := st.overallTimeWatched + time_diff }
  let st : WatchState := { st with timeOffset := progress, duration := duration }
  let st ←
    if st.flaggedWatched = 0 ∧ 10 * st.timeWatched > 7 * st.duration then (do
      let st := { st with flaggedWatched := 1, timesWatched := st.timesWatched + 1 }
      match st.watched_bitfield with
      | some wb => do
        let wb ← wb.set_video video_id true
        let w ← wb.serialize
        pure { st with watched_bitfield := some wb, watched := some w }
      | none => pure st : Except PyErr WatchState)
    else pure st
  let lib := { lib with state := st }
  let lib :=
    if lib.temp ∧ lib.state.timesWatched = 0 then { lib with removed := true } else lib
  let lib := if lib.removed then { lib with temp := true } else lib
  pure lib

/-- Modelled from the spec: `StremioObject.modified_time`
(`classes/base_class.py` is not part of the provided sources; the sync
comparison in `StremioAPI.update_data_store` reads
`data_store[id].modified_time`).  Per the spec this is the entry's
modification timestamp `modifiedAt`/`_mtime`, a `datetime` modelled as
epoch milliseconds; an unset timestamp is modelled as `0` (older than any
remote time). -/
def StremioLibrary.modified_time (lib : StremioLibrary) : Int :=
  lib._mtime.getD 0

/-- The in-memory `data_store` dict, id to entry, in insertion order. -/
abbrev Store := List ((List Char) × StremioLibrary)

/-- Python dict lookup `store[k]` (first matching key). -/
def storeLookup : Store → List Char → Option StremioLibrary
  | [], _ => none
  | (k, v) :: rest, key => if k = key then some v else storeLookup rest key

/-- Python dict assignment `store[k] = v`: overwrite in place when the key
exists, append otherwise. -/
def storeSet : Store → List Char → StremioLibrary → Store
  | [], key, v => [(key, v)]
  | (k, w) :: rest, key, v =>
    if k = key then (key, v) :: rest else (k, w) :: storeSet rest key v

/-- Modelled from the environment: `datetime.datetime.fromtimestamp(ms / 1000, utc)`
applied to a remote modification time in milliseconds yields the `datetime`
holding exactly those milliseconds, i.e. the identity under the
milliseconds representation of `datetime`. -/
def fromTimestampMillis (ms : Int) : Int := ms

/-- Stale-id loop of `StremioAPI.update_data_store`: an id from the remote
`(id, mtime-millis)` listing is collected when it is absent from the local
store or its local modification time is strictly older than the remote
one. -/
def outdatedIds (data_store : Store) (meta : List ((List Char) × Int)) : List (List Char) :=
  meta.foldl
    (fun acc i =>
      match storeLookup data_store i.1 with
      | none => acc ++ [i.1]
      | some lib =>
        if lib.modified_time < fromTimestampMillis i.2 then acc ++ [i.1] else acc)
    []

/-- Result of a modelled `update_data_store` run: the new store, the ids
passed to `get_data_by_ids` (or `none` when no fetch happened), and whether
`write_data_store` ran. -/
structure SyncResult where
  store : Store
  fetched : Option (List (List Char))
  wrote : Bool
deriving DecidableEq, Repr

/-- `StremioAPI.update_data_store()`, with the remote `datastoreMeta`
listing and the remote `datastoreGet` bulk fetch passed in explicitly:
compute the stale ids; when none, return immediately (no fetch, no write);
otherwise fetch exactly the stale ids, merge each returned record into the
store by its id (`get_data_by_ids`), and write the store file. -/
def update_data_store (data_store : Store) (meta : List ((List Char) × Int))
    (remote : List (List Char) → List StremioLibrary) : SyncResult :=
  let outdated_ids := outdatedIds data_store meta
  if outdated_ids.length = 0 then
    { store := data_store, fetched := none, wrote := false }
  else
    let fetchedRecords := remote outdated_ids
    let store' := fetchedRecords.foldl (fun s i => storeSet s i._id i) data_store
    { store := store', fetched := some outdated_ids, wrote := true }

/-- Externally visible effects of `StremioAPI.set_data`, in program order:
the local datastore-file write (with the full cache contents written) and
the remote `datastorePut` upload (with the changed entries).  `_post`
swallows every transport exception, so the upload is a trailing,
non-failing effect. -/
inductive ApiEffect where
  | fileWrite (contents : List StremioLibrary)
  | remotePost (changes : List StremioLibrary)
deriving DecidableEq, Repr

/-- `StremioAPI.set_data(data)`: update the in-memory map, persist the whole
cache to the local file, then upload the single changed entry; returns the
new in-memory store and the ordered effect list. -/
def set_data (data_store : Store) (data : StremioLibrary) : Store × List ApiEffect :=
  let store' := storeSet data_store data._id data
  (store', [.fileWrite (store'.map Prod.snd), .remotePost [data]])

/-! ### Helper lemmas: Python indexing and single-bit access -/

/-- A byte sequence: every element is a byte value. -/
def Bytes (bs : List Nat) : Prop := ∀ x ∈ bs, x < 256

theorem fdiv_natCast_eight (a : Nat) : Int.fdiv (a : Int) 8 = ((a / 8 : Nat) : Int) := by
  rw [Int.fdiv_eq_ediv _ (by norm_num)]
  omega

theorem fmod_natCast_eight (a : Nat) : Int.fmod (a : Int) 8 = ((a % 8 : Nat) : Int) := by
  rw [Int.fmod_eq_emod _ (by norm_num)]
  omega

theorem pyIdx_natCast (n : Nat) (j : Nat) :
    pyIdx n (j : Int) = if j < n then some j else none := by
  unfold pyIdx
  by_cases h : j < n
  · rw [if_pos ⟨by positivity, by exact_mod_cast h⟩, if_pos h, Int.toNat_ofNat]
  · rw [if_neg (by omega), if_neg (by omega), if_neg h]

theorem pyGetList_natCast {α : Type} (l : List α) (j : Nat) :
    pyGetList l (j : Int) = l[j]? := by
  unfold pyGetList
  rw [pyIdx_natCast]
  by_cases h : j < l.length
  · rw [if_pos h]
    rfl
  · rw [if_neg h, List.getElem?_eq_none (by omega)]
    rfl

theorem bne_and_shift (x b : Nat) : (x &&& (1 <<< b) != 0) = x.testBit b := by
  rw [Nat.one_shiftLeft, Nat.and_two_pow]
  cases h : x.testBit b <;> simp [h]

/-- `getN` in terms of `testBit`. -/
theorem BitField8.getN_eq (bf : BitField8) (i : Nat) :
    bf.getN i =
      if i / 8 < bf.values.length then (bf.values.getD (i / 8) 0).testBit (i % 8)
      else false := by
  unfold BitField8.getN
  by_cases h : i / 8 < bf.values.length
  · rw [if_neg (by omega), if_pos h, bne_and_shift]
  · rw [if_pos (by omega), if_neg h]

/-- `get` at a nonnegative index never raises and agrees with `getN`. -/
theorem BitField8.get_natCast (bf : BitField8) (j : Nat) :
    bf.get (j : Int) = .ok (bf.getN j) := by
  unfold BitField8.get BitField8.getN
  rw [fdiv_natCast_eight, fmod_natCast_eight, Int.toNat_ofNat]
  by_cases h : j / 8 < bf.values.length
  · rw [if_neg (by exact_mod_cast (by omega : ¬ (bf.values.length ≤ j / 8))), if_neg (by omega),
      pyGetList_natCast, List.getElem?_eq_getElem h]
    simp [List.getD_eq_getElem?_getD, List.getElem?_eq_getElem h]
  · rw [if_pos (by exact_mod_cast (by omega : bf.values.length ≤ j / 8)), if_pos (by omega)]

theorem List.getD_set_spec {α : Type} (l : List α) (k m : Nat) (v d : α) :
    (l.set k v).getD m d = if k = m ∧ k < l.length then v else l.getD m d := by
  rw [List.getD_eq_getElem?_getD, List.getD_eq_getElem?_getD, List.getElem?_set]
  by_cases h1 : k = m
  · by_cases h2 : k < l.length
    · rw [if_pos h1, if_pos h2, if_pos ⟨h1, h2⟩]
      rfl
    · rw [if_pos h1, if_neg h2, if_neg (by tauto), ← h1,
        List.getElem?_eq_none (by omega)]
  · rw [if_neg h1, if_neg (by tauto)]

/-- The effect of a successful in-capacity `set` on the byte buffer. -/
theorem BitField8.set_natCast (bf : BitField8) (j : Nat) (v : Bool)
    (hj : j / 8 < bf.values.length) :
    bf.set (j : Int) v =
      .ok ⟨bf.length,
        bf.values.set (j / 8)
          (if v then bf.values.getD (j / 8) 0 ||| 1 <<< (j % 8)
           else bf.values.getD (j / 8) 0 &&& (255 ^^^ 1 <<< (j % 8)))⟩ := by
  unfold BitField8.set pySetList
  simp only [fdiv_natCast_eight, fmod_natCast_eight, Int.toNat_ofNat, pyGetList_natCast,
    pyIdx_natCast, hj, if_true, List.getElem?_eq_getElem hj]
  simp [List.getD_eq_getElem?_getD, List.getElem?_eq_getElem hj]

/-- A successful in-capacity `set` changes exactly bit `j`. -/
theorem BitField8.set_spec (bf : BitField8) (j : Nat) (v : Bool)
    (hj : j < 8 * bf.values.length) :
    ∃ bf', bf.set (j : Int) v = .ok bf' ∧
      bf'.length = bf.length ∧
      bf'.values.length = bf.values.length ∧
      (Bytes bf.values → Bytes bf'.values) ∧
      ∀ i, bf'.getN i = if i = j then v else bf.getN i := by
  have hj8 : j / 8 < bf.values.length := by omega
  refine ⟨_, bf.set_natCast j v hj8, rfl, by simp, ?_, ?_⟩
  · intro hb x hx
    rcases List.mem_or_eq_of_mem_set hx with h | h
    · exact hb x h
    · subst h
      have hold : bf.values.getD (j / 8) 0 < 256 := by
        apply hb
        rw [List.getD_eq_getElem?_getD, List.getElem?_eq_getElem hj8]
        exact List.getElem_mem hj8
      cases v with
      | true =>
        simp only [if_true]
        have : (256 : Nat) = 2 ^ 8 := by norm_num
        rw [this] at hold ⊢
        refine Nat.or_lt_two_pow hold ?_
        rw [Nat.one_shiftLeft]
        exact Nat.pow_lt_pow_right (by norm_num) (by omega)
      | false =>
        simp only [if_false, Bool.false_eq_true]
        exact Nat.lt_of_le_of_lt Nat.and_le_left hold
  · intro i
    rw [BitField8.getN_eq, BitField8.getN_eq]
    simp only [List.length_set]
    by_cases hi : i / 8 < bf.values.length
    · rw [if_pos hi, if_pos hi, List.getD_set_spec]
      by_cases hbyte : j / 8 = i / 8
      · rw [if_pos ⟨hbyte, hj8⟩]
        by_cases hbit : j % 8 = i % 8
        · have hij : i = j := by omega
          rw [if_pos hij]
          cases v with
          | true =>
            simp only [if_true]
            rw [Nat.one_shiftLeft, Nat.testBit_lor, ← hbit, Nat.testBit_two_pow_self]
            simp
          | false =>
            simp only [if_false, Bool.false_eq_true]
            rw [Nat.one_shiftLeft, Nat.testBit_land, Nat.testBit_xor, ← hbit,
              Nat.testBit_two_pow_self,
              (by norm_num : (255 : Nat) = 2 ^ 8 - 1), Nat.testBit_two_pow_sub_one]
            simp [Nat.mod_lt j (by norm_num : 0 < 8)]
        · have hij : i ≠ j := by omega
          rw [if_neg hij]
          cases v with
          | true =>
            simp only [if_true]
            rw [Nat.one_shiftLeft, Nat.testBit_lor, Nat.testBit_two_pow_of_ne hbit, hbyte]
            simp
          | false =>
            simp only [if_false, Bool.false_eq_true]
            rw [Nat.one_shiftLeft, Nat.testBit_land, Nat.testBit_xor,
              Nat.testBit_two_pow_of_ne hbit,
              (by norm_num : (255 : Nat) = 2 ^ 8 - 1), Nat.testBit_two_pow_sub_one, hbyte]
            simp [Nat.mod_lt i (by norm_num : 0 < 8)]
      · have hij : i ≠ j := by omega
        rw [if_neg (by tauto), if_neg hij]
    · rw [if_neg hi, if_neg hi, if_neg (by omega)]

theorem BitField8.create_length (n : Nat) : (BitField8.create n).length = (n : Int) := rfl

theorem BitField8.create_values_length (n : Nat) :
    (BitField8.create n).values.length = (n + 7) / 8 := by
  simp [BitField8.create]

theorem BitField8.create_getN (n i : Nat) : (BitField8.create n).getN i = false := by
  rw [BitField8.getN_eq]
  unfold BitField8.create
  by_cases h : i / 8 < (List.replicate ((n + 7) / 8) (0 : Nat)).length
  · rw [if_pos h]
    rw [List.getD_eq_getElem?_getD, List.getElem?_replicate,
      if_pos (by simpa using h)]
    simp [Nat.zero_testBit]
  · rw [if_neg h]

theorem BitField8.create_bytes (n : Nat) : Bytes (BitField8.create n).values := by
  intro x hx
  simp only [BitField8.create, List.mem_replicate] at hx
  omega

/-! ### Helper lemmas: construction loops, `from_packed`, `last_index_of` -/

theorem exceptBind_ok {ε α β : Type} (a : α) (f : α → Except ε β) :
    (Except.ok a : Except ε α) >>= f = f a := rfl

theorem exceptBind_error {ε α β : Type} (e : ε) (f : α → Except ε β) :
    (Except.error e : Except ε α) >>= f = Except.error e := rfl

theorem setFromList_spec (arr : List Bool) (bf : BitField8) (start : Nat)
    (h : start + arr.length ≤ 8 * bf.values.length) :
    ∃ bf', setFromList bf arr start = .ok bf' ∧
      bf'.length = bf.length ∧
      bf'.values.length = bf.values.length ∧
      (Bytes bf.values → Bytes bf'.values) ∧
      ∀ i, bf'.getN i =
        if start ≤ i ∧ i < start + arr.length then arr.getD (i - start) false
        else bf.getN i := by
  induction arr generalizing bf start with
  | nil =>
    refine ⟨bf, rfl, rfl, rfl, fun hb => hb, fun i => ?_⟩
    rw [if_neg (by simp only [List.length_nil]; omega)]
  | cons v rest ih =>
    obtain ⟨bf1, hset, hlen, hvlen, hbytes, hget⟩ :=
      bf.set_spec start v (by simp at h; omega)
    obtain ⟨bf2, hrec, hlen2, hvlen2, hbytes2, hget2⟩ :=
      ih bf1 (start + 1) (by simp at h ⊢; omega)
    refine ⟨bf2, ?_, by rw [hlen2, hlen], by rw [hvlen2, hvlen],
      fun hb => hbytes2 (hbytes hb), fun i => ?_⟩
    · unfold setFromList
      rw [hset]
      exact hrec
    · rw [hget2, hget]
      by_cases h1 : start + 1 ≤ i ∧ i < start + 1 + rest.length
      · rw [if_pos h1, if_pos (by simp only [List.length_cons]; omega)]
        have : i - start = (i - (start + 1)) + 1 := by omega
        rw [this]
        rfl
      · rw [if_neg h1]
        by_cases h2 : i = start
        · subst h2
          rw [if_pos rfl, if_pos (by simp only [List.length_cons]; omega)]
          simp
        · rw [if_neg h2, if_neg (by simp only [List.length_cons]; omega)]

/-- Specification of a full `construct_from_array` run when the boolean list
fits in the id list (the only case the code base exercises). -/
theorem construct_from_array_spec (arr : List Bool) (ids : List (List Char))
    (h : arr.length ≤ ids.length) :
    ∃ wb, WatchedBitfield.construct_from_array arr ids = .ok wb ∧
      wb.video_ids = ids ∧
      wb.bitfield.length = (ids.length : Int) ∧
      wb.bitfield.values.length = (ids.length + 7) / 8 ∧
      Bytes wb.bitfield.values ∧
      ∀ i, wb.bitfield.getN i = if i < arr.length then arr.getD i false else false := by
  obtain ⟨bf, hrun, hlen, hvlen, hbytes, hget⟩ :=
    setFromList_spec arr (BitField8.create ids.length) 0
      (by rw [BitField8.create_values_length]; omega)
  refine ⟨⟨bf, ids⟩, ?_, rfl, by rw [hlen, BitField8.create_length],
    by rw [hvlen, BitField8.create_values_length], hbytes (BitField8.create_bytes _),
    fun i => ?_⟩
  · unfold WatchedBitfield.construct_from_array
    rw [hrun]
    rfl
  · rw [hget]
    by_cases hi : i < arr.length
    · rw [if_pos (by omega), if_pos hi]
      simp
    · rw [if_neg (by omega), if_neg hi, BitField8.create_getN]

theorem remapLoop_spec (prev : BitField8) (offset : Int) (bf : BitField8) (m : Nat)
    (h : m ≤ 8 * bf.values.length) :
    ∃ bf', remapLoop prev offset bf m = .ok bf' ∧
      bf'.length = bf.length ∧
      bf'.values.length = bf.values.length ∧
      (Bytes bf.values → Bytes bf'.values) ∧
      ∀ i, bf'.getN i =
        if i < m ∧ 0 ≤ (i : Int) + offset ∧ (i : Int) + offset < prev.length then
          prev.getN ((i : Int) + offset).toNat
        else bf.getN i := by
  induction m with
  | zero =>
    refine ⟨bf, rfl, rfl, rfl, fun hb => hb, fun i => ?_⟩
    rw [if_neg (by omega)]
  | succ m ih =>
    obtain ⟨bf1, hrec, hlen, hvlen, hbytes, hget⟩ := ih (by omega)
    by_cases hc : 0 ≤ (m : Int) + offset ∧ (m : Int) + offset < prev.length
    · have hgn : prev.get ((m : Int) + offset) = .ok (prev.getN ((m : Int) + offset).toNat) := by
        have h1 : (m : Int) + offset = (((m : Int) + offset).toNat : Int) := by omega
        rw [h1, BitField8.get_natCast]
        congr 2
      obtain ⟨bf2, hset, hlen2, hvlen2, hbytes2, hget2⟩ :=
        bf1.set_spec m (prev.getN ((m : Int) + offset).toNat) (by omega)
      refine ⟨bf2, ?_, by rw [hlen2, hlen], by rw [hvlen2, hvlen],
        fun hb => hbytes2 (hbytes hb), fun i => ?_⟩
      · unfold remapLoop
        rw [hrec, exceptBind_ok]
        simp only [if_pos hc]
        rw [hgn, exceptBind_ok]
        exact hset
      · rw [hget2, hget]
        by_cases hi : i = m
        · subst hi
          rw [if_pos rfl, if_pos ⟨by omega, hc⟩]
        · rw [if_neg hi]
          by_cases h2 : i < m ∧ 0 ≤ (i : Int) + offset ∧ (i : Int) + offset < prev.length
          · rw [if_pos h2, if_pos ⟨by omega, h2.2⟩]
          · rw [if_neg h2, if_neg (by
              intro hcon
              rcases hcon with ⟨hlt, hrest⟩
              rcases Nat.lt_succ_iff_lt_or_eq.mp hlt with hlt' | heq
              · exact h2 ⟨hlt', hrest⟩
              · exact hi heq)]
    · refine ⟨bf1, ?_, hlen, hvlen, hbytes, fun i => ?_⟩
      · unfold remapLoop
        rw [hrec, exceptBind_ok]
        simp only [if_neg hc]
        rfl
      · rw [hget]
        by_cases h2 : i < m ∧ 0 ≤ (i : Int) + offset ∧ (i : Int) + offset < prev.length
        · rw [if_pos h2, if_pos ⟨by omega, h2.2⟩]
        · rw [if_neg h2]
          rw [if_neg (by
            intro hcon
            rcases hcon with ⟨hlt, hrest⟩
            rcases Nat.lt_succ_iff_lt_or_eq.mp hlt with hlt' | heq
            · exact h2 ⟨hlt', hrest⟩
            · subst heq
              exact hc hrest)]

theorem BitField8.from_packed_length (c : List Nat) (l : Int) :
    (BitField8.from_packed c (some l)).length = l := by
  unfold BitField8.from_packed
  dsimp only
  split <;> rfl

/-- Decompression of a buffer that already has exactly the byte capacity the
requested length needs reproduces the buffer unchanged. -/
theorem BitField8.from_packed_exact (vals : List Nat) (n : Nat)
    (h : vals.length = (n + 7) / 8) :
    BitField8.from_packed (zlibCompress vals) (some (n : Int)) = ⟨(n : Int), vals⟩ := by
  unfold BitField8.from_packed zlibCompress zlibDecompress
  have hdiv : ((n : Int) + 7).fdiv 8 = (((n + 7) / 8 : Nat) : Int) := by
    have hc : ((n : Int) + 7) = ((n + 7 : Nat) : Int) := by push_cast; ring
    rw [hc, fdiv_natCast_eight]
  dsimp only
  rw [hdiv, if_neg (by rw [h]; omega)]

theorem BitField8.lastIndexAux_lt (bf : BitField8) (v : Bool) (n : Nat) :
    BitField8.lastIndexAux bf v n < (n : Int) := by
  induction n with
  | zero => simp [BitField8.lastIndexAux]
  | succ n ih =>
    unfold BitField8.lastIndexAux
    by_cases h : bf.getN n = v
    · rw [if_pos h]
      omega
    · rw [if_neg h]
      omega

theorem BitField8.lastIndexAux_notFound (bf : BitField8) (v : Bool) (n : Nat)
    (h : ∀ i, i < n → bf.getN i ≠ v) :
    BitField8.lastIndexAux bf v n = -1 := by
  induction n with
  | zero => rfl
  | succ n ih =>
    unfold BitField8.lastIndexAux
    rw [if_neg (h n (by omega))]
    exact ih fun i hi => h i (by omega)

theorem BitField8.lastIndexAux_found (bf : BitField8) (v : Bool) (n k : Nat)
    (hk : k < n) (hv : bf.getN k = v) (hafter : ∀ j, k < j → j < n → bf.getN j ≠ v) :
    BitField8.lastIndexAux bf v n = (k : Int) := by
  induction n with
  | zero => omega
  | succ n ih =>
    unfold BitField8.lastIndexAux
    by_cases h : n = k
    · subst h
      rw [if_pos hv]
    · rw [if_neg (hafter n (by omega) (by omega))]
      exact ih (by omega) fun j hj1 hj2 => hafter j hj1 (by omega)

theorem intToChars_natCast (n : Nat) : intToChars (n : Int) = natToChars n := by
  unfold intToChars
  rw [if_neg (by omega)]
  congr 1

/-- Evaluated form of `serialize` when the anchor index is known and within
the id list. -/
theorem WatchedBitfield.serialize_eq (wb : WatchedBitfield) (k : Nat)
    (hk : max 0 (wb.bitfield.last_index_of true) = (k : Int))
    (hlt : k < wb.video_ids.length) :
    wb.serialize = .ok (wb.video_ids.getD k [] ++ ':' ::
      natToChars (k + 1) ++ ':' :: b64encode (zlibCompress wb.bitfield.values)) := by
  unfold WatchedBitfield.serialize BitField8.to_packed
  rw [hk]
  dsimp only
  rw [pyGetList_natCast, List.getElem?_eq_getElem hlt]
  have hcast : (k : Int) + 1 = ((k + 1 : Nat) : Int) := by push_cast; ring
  rw [hcast, intToChars_natCast]
  rw [List.getD_eq_getElem?_getD, List.getElem?_eq_getElem hlt]
  rfl

/-- `serialize` raises `IndexError` on an empty id list. -/
theorem WatchedBitfield.serialize_nil (wb : WatchedBitfield) (h : wb.video_ids = []) :
    wb.serialize = .error .indexError := by
  have hmax : 0 ≤ max 0 (wb.bitfield.last_index_of true) := by omega
  have : pyGetList wb.video_ids (max 0 (wb.bitfield.last_index_of true)) = none := by
    have hc : max 0 (wb.bitfield.last_index_of true) =
        (((max 0 (wb.bitfield.last_index_of true)).toNat : Nat) : Int) := by omega
    rw [hc, pyGetList_natCast, h]
    simp
  unfold WatchedBitfield.serialize
  dsimp only
  rw [this]

/-! ### Helper lemmas: splitting and joining on `:` -/

theorem splitColon_ne_nil (s : List Char) : splitColon s ≠ [] := by
  cases s with
  | nil => simp [splitColon]
  | cons c rest =>
    unfold splitColon
    by_cases h : c = ':'
    · rw [if_pos h]
      simp
    · rw [if_neg h]
      cases hs : splitColon rest <;> simp

theorem splitColon_no_colon (t : List Char) (h : ':' ∉ t) : splitColon t = [t] := by
  induction t with
  | nil => rfl
  | cons c rest ih =>
    unfold splitColon
    rw [if_neg (by intro hc; exact h (by rw [hc]; exact List.mem_cons_self _ _))]
    rw [ih (fun hm => h (List.mem_cons_of_mem _ hm))]

theorem splitColon_append (s t : List Char) (h : ':' ∉ t) :
    splitColon (s ++ ':' :: t) = splitColon s ++ [t] := by
  induction s with
  | nil =>
    show splitColon (':' :: t) = [[]] ++ [t]
    unfold splitColon
    rw [if_pos rfl, splitColon_no_colon t h]
    rfl
  | cons c s' ih =>
    show splitColon (c :: (s' ++ ':' :: t)) = splitColon (c :: s') ++ [t]
    unfold splitColon
    by_cases hc : c = ':'
    · rw [if_pos hc, if_pos hc, ih]
      rfl
    · rw [if_neg hc, if_neg hc, ih]
      cases hs : splitColon s' with
      | nil => exact absurd hs (splitColon_ne_nil s')
      | cons g gs => rfl

theorem joinColon_splitColon (s : List Char) : joinColon (splitColon s) = s := by
  induction s with
  | nil => rfl
  | cons c rest ih =>
    unfold splitColon
    by_cases hc : c = ':'
    · rw [if_pos hc]
      subst hc
      cases hs : splitColon rest with
      | nil => exact absurd hs (splitColon_ne_nil rest)
      | cons g gs =>
        show ':' :: joinColon (g :: gs) = ':' :: rest
        rw [← hs, ih]
    · rw [if_neg hc]
      cases hs : splitColon rest with
      | nil => exact absurd hs (splitColon_ne_nil rest)
      | cons g gs =>
        cases gs with
        | nil =>
          show c :: g = c :: rest
          have := ih
          rw [hs] at this
          simpa using this
        | cons g2 gs2 =>
          show c :: g ++ ':' :: joinColon (g2 :: gs2) = c :: rest
          have := ih
          rw [hs] at this
          simpa using this

theorem splitColon_length (s : List Char) :
    (splitColon s).length = s.count ':' + 1 := by
  induction s with
  | nil => rfl
  | cons c rest ih =>
    unfold splitColon
    by_cases hc : c = ':'
    · rw [if_pos hc]
      subst hc
      simp [List.count_cons, ih]
    · rw [if_neg hc]
      cases hs : splitColon rest with
      | nil => exact absurd hs (splitColon_ne_nil rest)
      | cons g gs =>
        have hlen := ih
        rw [hs] at hlen
        simp only [List.length_cons] at hlen ⊢
        rw [List.count_cons, if_neg (by simp [hc])]
        omega

/-! ### Helper lemmas: decimal digits -/

theorem digitChar_toNat (d : Nat) (h : d < 10) : (digitChar d).toNat = 48 + d := by
  revert h
  revert d
  decide

theorem digitChar_isDigit (d : Nat) (h : d < 10) : isDigitChar (digitChar d) = true := by
  revert h
  revert d
  decide

theorem natToCharsAux_all_digits (fuel n : Nat) :
    (natToCharsAux fuel n).all isDigitChar = true := by
  induction fuel generalizing n with
  | zero => rfl
  | succ fuel ih =>
    unfold natToCharsAux
    by_cases h : n = 0
    · rw [if_pos h]
      rfl
    · rw [if_neg h, List.all_append, ih]
      simp [digitChar_isDigit (n % 10) (by omega)]

theorem natToCharsAux_ne_nil (fuel n : Nat) (h1 : 0 < n) (h2 : n ≤ fuel) :
    natToCharsAux fuel n ≠ [] := by
  cases fuel with
  | zero => omega
  | succ fuel =>
    unfold natToCharsAux
    rw [if_neg (by omega)]
    simp

theorem natToCharsAux_foldl (fuel : Nat) :
    ∀ n acc, n ≤ fuel →
      (natToCharsAux fuel n).foldl (fun a c => a * 10 + (c.toNat - 48)) acc =
        acc * 10 ^ (natToCharsAux fuel n).length + n := by
  induction fuel with
  | zero =>
    intro n acc h
    have : n = 0 := by omega
    subst this
    simp [natToCharsAux]
  | succ fuel ih =>
    intro n acc h
    unfold natToCharsAux
    by_cases h0 : n = 0
    · subst h0
      simp
    · rw [if_neg h0]
      rw [List.foldl_append, List.length_append]
      rw [ih (n / 10) acc (by omega)]
      simp only [List.foldl_cons, List.foldl_nil, List.length_cons, List.length_nil]
      rw [digitChar_toNat (n % 10) (by omega)]
      have hpow : 10 ^ (0 + 1) = 10 := by norm_num
      rw [pow_succ]
      have : 48 + n % 10 - 48 = n % 10 := by omega
      rw [this]
      ring_nf
      omega

theorem parseNat_natToChars (n : Nat) : parseNat (natToChars n) = some n := by
  unfold natToChars
  by_cases h : n = 0
  · subst h
    rw [if_pos rfl]
    decide
  · rw [if_neg h]
    unfold parseNat
    rw [if_pos ⟨natToCharsAux_ne_nil n n (by omega) le_rfl, natToCharsAux_all_digits n n⟩]
    rw [natToCharsAux_foldl n n 0 le_rfl]
    simp

theorem all_digits_no_colon (cs : List Char) (h : cs.all isDigitChar = true) : ':' ∉ cs := by
  intro hm
  have := List.all_eq_true.mp h ':' hm
  revert this
  decide

theorem natToChars_no_colon (n : Nat) : ':' ∉ natToChars n := by
  unfold natToChars
  by_cases h : n = 0
  · rw [if_pos h]
    decide
  · rw [if_neg h]
    exact all_digits_no_colon _ (natToCharsAux_all_digits n n)

theorem natToChars_all_digits (n : Nat) : (natToChars n).all isDigitChar = true := by
  unfold natToChars
  by_cases h : n = 0
  · rw [if_pos h]
    decide
  · rw [if_neg h]
    exact natToCharsAux_all_digits n n

theorem parseInt_digits (cs : List Char) (h : cs.all isDigitChar = true) :
    parseInt cs = (parseNat cs).map fun n => (n : Int) := by
  unfold parseInt
  split
  · rename_i rest
    have := List.all_eq_true.mp h '-' (List.mem_cons_self _ _)
    exact absurd this (by decide)
  · rfl

theorem parseInt_natToChars (n : Nat) : parseInt (natToChars n) = some ((n : Nat) : Int) := by
  rw [parseInt_digits _ (natToChars_all_digits n), parseNat_natToChars n]
  rfl

/-! ### Helper lemmas: base64 -/

theorem b64Index_b64Char (s : Nat) (h : s < 64) : b64Index (b64Char s) = some s := by
  revert h
  revert s
  decide

theorem b64Char_ne_eq (s : Nat) (h : s < 64) : b64Char s ≠ '=' := by
  revert h
  revert s
  decide

theorem b64Char_ne_colon (n : Nat) : b64Char n ≠ ':' := by
  unfold b64Char
  by_cases h : n < b64Chars.length
  · rw [List.getD_eq_getElem?_getD, List.getElem?_eq_getElem h]
    intro hc
    have hm : ':' ∈ b64Chars := hc ▸ List.getElem_mem h
    exact absurd hm (by decide)
  · rw [List.getD_eq_getElem?_getD, List.getElem?_eq_none (by omega)]
    decide

theorem b64encode_no_colon (bs : List Nat) : ':' ∉ b64encode bs := by
  induction bs using b64encode.induct with
  | case1 => simp [b64encode]
  | case2 a =>
    simp only [b64encode, List.mem_cons]
    intro hc
    rcases hc with h | h | h | h
    · exact b64Char_ne_colon _ h.symm
    · exact b64Char_ne_colon _ h.symm
    · exact absurd h.symm (by decide)
    · simp at h
  | case3 a b =>
    simp only [b64encode, List.mem_cons]
    intro hc
    rcases hc with h | h | h | h | h
    · exact b64Char_ne_colon _ h.symm
    · exact b64Char_ne_colon _ h.symm
    · exact b64Char_ne_colon _ h.symm
    · exact absurd h.symm (by decide)
    · simp at h
  | case4 a b c rest ih =>
    simp only [b64encode, List.mem_cons]
    intro hc
    rcases hc with h | h | h | h | h
    · exact b64Char_ne_colon _ h.symm
    · exact b64Char_ne_colon _ h.symm
    · exact b64Char_ne_colon _ h.symm
    · exact b64Char_ne_colon _ h.symm
    · exact ih h

theorem b64_roundtrip (bs : List Nat) (h : ∀ x ∈ bs, x < 256) :
    b64decode (b64encode bs) = some bs := by
  induction bs using b64encode.induct with
  | case1 => rfl
  | case2 a =>
    have ha : a < 256 := h a (by simp)
    show b64decode [b64Char (a / 4), b64Char (a % 4 * 16), '=', '='] = some [a]
    unfold b64decode
    rw [if_pos ⟨rfl, rfl, rfl⟩]
    rw [b64Index_b64Char (a / 4) (by omega), b64Index_b64Char (a % 4 * 16) (by omega)]
    dsimp only
    congr 1
    congr 1
    omega
  | case3 a b =>
    have ha : a < 256 := h a (by simp)
    have hb : b < 256 := h b (by simp)
    show b64decode
        [b64Char (a / 4), b64Char (a % 4 * 16 + b / 16), b64Char (b % 16 * 4), '='] =
      some [a, b]
    unfold b64decode
    rw [if_neg (by
      intro hcon
      exact b64Char_ne_eq (b % 16 * 4) (by omega) hcon.1)]
    rw [if_pos ⟨rfl, rfl⟩]
    rw [b64Index_b64Char (a / 4) (by omega),
      b64Index_b64Char (a % 4 * 16 + b / 16) (by omega),
      b64Index_b64Char (b % 16 * 4) (by omega)]
    dsimp only
    congr 1
    congr 1
    · omega
    · congr 1
      omega
  | case4 a b c rest ih =>
    have ha : a < 256 := h a (by simp)
    have hb : b < 256 := h b (by simp)
    have hc : c < 256 := h c (by simp)
    have hrest : b64decode (b64encode rest) = some rest :=
      ih fun x hx => h x (by simp [hx])
    show b64decode (b64Char (a / 4) :: b64Char (a % 4 * 16 + b / 16) ::
        b64Char (b % 16 * 4 + c / 64) :: b64Char (c % 64) :: b64encode rest) =
      some (a :: b :: c :: rest)
    unfold b64decode
    rw [if_neg (by
      intro hcon
      exact b64Char_ne_eq (b % 16 * 4 + c / 64) (by omega) hcon.1)]
    rw [if_neg (by
      intro hcon
      exact b64Char_ne_eq (c % 64) (by omega) hcon.1)]
    rw [b64Index_b64Char (a / 4) (by omega),
      b64Index_b64Char (a % 4 * 16 + b / 16) (by omega),
      b64Index_b64Char (b % 16 * 4 + c / 64) (by omega),
      b64Index_b64Char (c % 64) (by omega), hrest]
    dsimp only
    congr 1
    congr 1
    · omega
    · congr 1
      · omega
      · congr 1
        omega

/-! ### Helper lemmas: parsing the wire format -/

/-- `construct_and_resize` on a well-formed wire string recovers the three
components exactly (also when the anchor id itself contains colons). -/
theorem construct_and_resize_parsed (anchor numC payload : List Char)
    (ids : List (List Char)) (hn : ':' ∉ numC) (hp : ':' ∉ payload) :
    WatchedBitfield.construct_and_resize (anchor ++ ':' :: numC ++ ':' :: payload) ids =
      match parseInt numC with
      | none => .error .intParseError
      | some anchor_length =>
        WatchedBitfield.resize_core anchor anchor_length payload ids := by
  have hsplit : splitColon (anchor ++ ':' :: numC ++ ':' :: payload) =
      splitColon anchor ++ [numC, payload] := by
    have h1 : anchor ++ ':' :: numC ++ ':' :: payload =
        (anchor ++ ':' :: numC) ++ ':' :: payload := by
      simp
    rw [h1, splitColon_append _ _ hp, splitColon_append _ _ hn, List.append_assoc]
    rfl
  have hpos : 0 < (splitColon anchor).length :=
    List.length_pos.mpr (splitColon_ne_nil anchor)
  unfold WatchedBitfield.construct_and_resize
  dsimp only
  rw [hsplit]
  rw [if_neg (by
    simp only [List.length_append, List.length_cons, List.length_nil]
    omega)]
  have hrev : (splitColon anchor ++ [numC, payload]).reverse =
      payload :: numC :: (splitColon anchor).reverse := by
    simp
  rw [hrev]
  dsimp only
  rw [List.reverse_reverse, joinColon_splitColon]

/-- The direct decode path: anchor present with zero offset. -/
theorem resize_core_aligned (anchor : List Char) (alen : Int) (payload : List Char)
    (bs : List Nat) (ids : List (List Char))
    (hmem : anchor ∈ ids)
    (hoff : alen - 1 - (ids.indexOf anchor : Int) = 0)
    (hdec : b64decode payload = some bs) :
    WatchedBitfield.resize_core anchor alen payload ids =
      .ok ⟨BitField8.from_packed bs (some (ids.length : Int)), ids⟩ := by
  unfold WatchedBitfield.resize_core
  dsimp only
  rw [if_pos hmem]
  rw [if_neg (by
    intro hcon
    rcases hcon with h | h
    · omega
    · exact h hoff)]
  rw [hdec]

/-- The remap path: anchor present with nonzero offset.  Each target bit `i`
reads the decoded source bit at `i + offset` when that index lies in
`[0, anchorLength)` and is false otherwise. -/
theorem resize_core_shift (anchor : List Char) (alen : Int) (payload : List Char)
    (bs : List Nat) (ids : List (List Char))
    (hmem : anchor ∈ ids)
    (hoff : alen - 1 - (ids.indexOf anchor : Int) ≠ 0)
    (hdec : b64decode payload = some bs) :
    ∃ bf, WatchedBitfield.resize_core anchor alen payload ids = .ok ⟨bf, ids⟩ ∧
      bf.length = (ids.length : Int) ∧
      ∀ i, i < ids.length →
        bf.getN i =
          if 0 ≤ (i : Int) + (alen - 1 - (ids.indexOf anchor : Int)) ∧
              (i : Int) + (alen - 1 - (ids.indexOf anchor : Int)) < alen then
            (BitField8.from_packed bs (some alen)).getN
              ((i : Int) + (alen - 1 - (ids.indexOf anchor : Int))).toNat
          else false := by
  obtain ⟨bf, hrun, hlen, hvlen, _, hget⟩ :=
    remapLoop_spec (BitField8.from_packed bs (some alen))
      (alen - 1 - (ids.indexOf anchor : Int)) (BitField8.create ids.length) ids.length
      (by rw [BitField8.create_values_length]; omega)
  refine ⟨bf, ?_, by rw [hlen, BitField8.create_length], fun i hi => ?_⟩
  · unfold WatchedBitfield.resize_core
    dsimp only
    rw [if_pos hmem]
    rw [if_pos (Or.inr (by
      intro hcon
      exact hoff hcon))]
    rw [if_neg (by
      have := List.indexOf_lt_length.mpr hmem
      omega)]
    rw [hdec]
    dsimp only
    rw [hrun, exceptBind_ok]
    rfl
  · rw [hget i]
    rw [BitField8.from_packed_length] at hget ⊢
    by_cases hc : 0 ≤ (i : Int) + (alen - 1 - (ids.indexOf anchor : Int)) ∧
        (i : Int) + (alen - 1 - (ids.indexOf anchor : Int)) < alen
    · rw [if_pos ⟨hi, hc⟩, if_pos hc]
    · rw [if_neg (by
        intro hcon
        exact hc hcon.2), if_neg hc, BitField8.create_getN]

/-- The anchor-absent path returns the fresh all-false bitfield. -/
theorem resize_core_absent (anchor : List Char) (alen : Int) (payload : List Char)
    (ids : List (List Char)) (hmem : anchor ∉ ids) :
    WatchedBitfield.resize_core anchor alen payload ids =
      .ok ⟨BitField8.create ids.length, ids⟩ := by
  unfold WatchedBitfield.resize_core
  dsimp only
  rw [if_neg hmem]
  rw [if_pos (Or.inl rfl), if_pos rfl]

/-- No path of `resize_core` raises the component-count error. -/
theorem resize_core_not_invalid (anchor : List Char) (alen : Int) (payload : List Char)
    (ids : List (List Char)) :
    WatchedBitfield.resize_core anchor alen payload ids ≠ .error .invalidComponents := by
  by_cases hmem : anchor ∈ ids
  · by_cases hoff : alen - 1 - (ids.indexOf anchor : Int) = 0
    · cases hdec : b64decode payload with
      | none =>
        unfold WatchedBitfield.resize_core
        dsimp only
        rw [if_pos hmem]
        rw [if_neg (by
          intro hcon
          rcases hcon with h | h
          · have := List.indexOf_lt_length.mpr hmem
            omega
          · exact h hoff)]
        rw [hdec]
        simp
      | some bs =>
        rw [resize_core_aligned anchor alen payload bs ids hmem hoff hdec]
        simp
    · cases hdec : b64decode payload with
      | none =>
        unfold WatchedBitfield.resize_core
        dsimp only
        rw [if_pos hmem]
        rw [if_pos (Or.inr hoff)]
        rw [if_neg (by
          have := List.indexOf_lt_length.mpr hmem
          omega)]
        rw [hdec]
        simp
      | some bs =>
        obtain ⟨bf, hrun, _, _⟩ := resize_core_shift anchor alen payload bs ids hmem hoff hdec
        rw [hrun]
        simp
  · rw [resize_core_absent anchor alen payload ids hmem]
    simp

/-- `indexOf` of the `k`-th element of a duplicate-free list is `k` (stated
over the `BEq` instance the definitions use). -/
theorem indexOf_getElem_of_nodup {α : Type} [BEq α] [LawfulBEq α] (l : List α)
    (hnd : l.Nodup) :
    ∀ (k : Nat) (hk : k < l.length), List.indexOf (l.get ⟨k, hk⟩) l = k := by
  induction l with
  | nil =>
    intro k hk
    simp at hk
  | cons x xs ih =>
    intro k hk
    obtain ⟨hx, hxs⟩ := List.nodup_cons.mp hnd
    cases k with
    | zero => simp [List.indexOf_cons]
    | succ k =>
      have hk' : k < xs.length := by simpa using hk
      have hne : x ≠ xs.get ⟨k, hk'⟩ := by
        intro hcon
        exact hx (hcon ▸ List.get_mem xs k hk')
      have hval : (x :: xs).get ⟨k + 1, hk⟩ = xs.get ⟨k, hk'⟩ := rfl
      rw [hval, List.indexOf_cons, beq_eq_false_iff_ne.mpr hne]
      have hrec := ih hxs k hk'
      simp only [List.get_eq_getElem] at hrec
      simp [hrec]

/-! ### Claim C1: serialize/deserialize round trip -/

/-- C1 (amended): for every boolean list `b` of length `n > 0` and every
id list of the same length whose entries are pairwise distinct,
deserializing the string produced by serializing the bitfield built from
`b` over the ids, against the same unchanged ids, yields a bitfield whose
`get(i)` equals `b[i]` for every `i < n`.  (Distinctness is required: with
duplicated ids the anchor lookup finds the first occurrence, the offset
becomes nonzero, and the bits shift — see the counterexample.) -/
theorem c1_roundtrip (b : List Bool) (ids : List (List Char))
    (hlen : b.length = ids.length) (hpos : 0 < ids.length) (hnd : ids.Nodup) :
    ∃ wb s wb2,
      WatchedBitfield.construct_from_array b ids = .ok wb ∧
      wb.serialize = .ok s ∧
      WatchedBitfield.construct_and_resize s ids = .ok wb2 ∧
      ∀ i, i < ids.length → wb2.bitfield.getN i = b.getD i false := by
  obtain ⟨wb, hwb, hids, hbl, hvl, hbytes, hget⟩ :=
    construct_from_array_spec b ids (by omega)
  have hlt := BitField8.lastIndexAux_lt wb.bitfield true wb.bitfield.length.toNat
  have hltoNat : wb.bitfield.length.toNat = ids.length := by
    rw [hbl]
    simp
  rw [hltoNat] at hlt
  set l := wb.bitfield.last_index_of true with hl
  have hlval : BitField8.lastIndexAux wb.bitfield true ids.length = l := by
    rw [hl]
    unfold BitField8.last_index_of
    rw [hltoNat]
  rw [hlval] at hlt
  set k := (max 0 l).toNat with hkdef
  have hk : max 0 l = (k : Int) := by omega
  have hklt : k < ids.length := by omega
  have hanchor : ids.getD k [] = ids[k] := by
    rw [List.getD_eq_getElem?_getD, List.getElem?_eq_getElem hklt]
    rfl
  have hs := wb.serialize_eq k (by rw [← hl]; exact hk) (by rw [hids]; exact hklt)
  rw [hids] at hs
  have hres : WatchedBitfield.construct_and_resize
      (ids.getD k [] ++ ':' :: natToChars (k + 1) ++ ':' ::
        b64encode (zlibCompress wb.bitfield.values)) ids =
      .ok ⟨BitField8.from_packed (zlibCompress wb.bitfield.values)
        (some (ids.length : Int)), ids⟩ := by
    rw [construct_and_resize_parsed _ _ _ _ (natToChars_no_colon (k + 1))
      (b64encode_no_colon _)]
    rw [parseInt_natToChars (k + 1)]
    dsimp only
    exact resize_core_aligned _ _ _ (zlibCompress wb.bitfield.values) _
      (by rw [hanchor]; exact List.getElem_mem hklt)
      (by
        have hidx := indexOf_getElem_of_nodup ids hnd k hklt
        rw [List.get_eq_getElem] at hidx
        rw [hanchor, hidx]
        push_cast
        ring)
      (b64_roundtrip _ hbytes)
  have hfinal : ∀ i, i < ids.length →
      (BitField8.from_packed (zlibCompress wb.bitfield.values)
        (some (ids.length : Int))).getN i = b.getD i false := by
    intro i hi
    rw [BitField8.from_packed_exact wb.bitfield.values ids.length hvl]
    have hsame : BitField8.getN ⟨(ids.length : Int), wb.bitfield.values⟩ i =
        wb.bitfield.getN i := by
      rw [BitField8.getN_eq, BitField8.getN_eq]
    rw [hsame, hget i, if_pos (by omega)]
  exact ⟨wb, _, _, hwb, hs, hres, hfinal⟩

/-- C1 counterexample: with the duplicated id list `["x", "x"]` and bits
`[false, true]`, the round trip returns `false` at position 1 although
`b[1] = true` — the claim fails without a distinctness assumption. -/
theorem c1_counterexample :
    Except.map (fun wb => wb.bitfield.getN 1)
      (((WatchedBitfield.construct_from_array [false, true] [['x'], ['x']]).bind
          WatchedBitfield.serialize).bind
        (fun s => WatchedBitfield.construct_and_resize s [['x'], ['x']])) = .ok false
    ∧ [false, true].getD 1 false = true := by
  constructor
  · rfl
  · rfl

/-- C1 witness: the round trip at the concrete input `b = [true]`,
`ids = ["a"]`. -/
theorem c1_roundtrip_witness :
    ∃ wb s wb2,
      WatchedBitfield.construct_from_array [true] [['a']] = .ok wb ∧
      wb.serialize = .ok s ∧
      WatchedBitfield.construct_and_resize s [['a']] = .ok wb2 ∧
      ∀ i, i < 1 → wb2.bitfield.getN i = [true].getD i false :=
  c1_roundtrip [true] [['a']] rfl (by decide) (by decide)

/-! ### Claim C2: offset remap on deserialization -/

/-- C2: when the anchor id is found in the new id list at an index giving a
nonzero offset `offset = (anchorLength - 1) - anchorIndex`,
`construct_and_resize` returns a bitfield of length `len(ids)` in which
position `i` holds the decoded source bit at index `i + offset` when that
index lies in `[0, anchorLength)` and false otherwise. -/
theorem c2_offset_remap (anchor : List Char) (alen : Nat) (payload : List Nat)
    (ids : List (List Char))
    (hpay : ∀ x ∈ payload, x < 256)
    (hmem : anchor ∈ ids)
    (hoff : (alen : Int) - 1 - (ids.indexOf anchor : Int) ≠ 0) :
    ∃ bf, WatchedBitfield.construct_and_resize
        (anchor ++ ':' :: natToChars alen ++ ':' :: b64encode payload) ids =
        .ok ⟨bf, ids⟩ ∧
      bf.length = (ids.length : Int) ∧
      ∀ i, i < ids.length →
        bf.getN i =
          if 0 ≤ (i : Int) + ((alen : Int) - 1 - (ids.indexOf anchor : Int)) ∧
              (i : Int) + ((alen : Int) - 1 - (ids.indexOf anchor : Int)) < (alen : Int) then
            (BitField8.from_packed payload (some (alen : Int))).getN
              ((i : Int) + ((alen : Int) - 1 - (ids.indexOf anchor : Int))).toNat
          else false := by
  obtain ⟨bf, hrun, hlen, hget⟩ :=
    resize_core_shift anchor (alen : Int) (b64encode payload) payload ids hmem hoff
      (b64_roundtrip payload hpay)
  refine ⟨bf, ?_, hlen, hget⟩
  rw [construct_and_resize_parsed _ _ _ _ (natToChars_no_colon alen)
    (b64encode_no_colon payload), parseInt_natToChars alen]
  exact hrun

/-- C2 witness: serializing ids `["a", "b", "c"]` fully watched and
deserializing against `["x", "a", "b", "c"]` yields `a`, `b`, `c` watched
and `x` unwatched. -/
theorem c2_offset_remap_witness :
    Except.map
      (fun wb => (wb.bitfield.getN 0, wb.bitfield.getN 1,
        wb.bitfield.getN 2, wb.bitfield.getN 3))
      (((WatchedBitfield.construct_from_array [true, true, true]
            [['a'], ['b'], ['c']]).bind
          WatchedBitfield.serialize).bind
        (fun s => WatchedBitfield.construct_and_resize s
          [['x'], ['a'], ['b'], ['c']])) = .ok (false, true, true, true) := by
  obtain ⟨bf, hrun, hlen, hget⟩ :=
    c2_offset_remap ['c'] 3 [7] [['x'], ['a'], ['b'], ['c']]
      (by decide) (by decide) (by decide)
  have h0 : (((WatchedBitfield.construct_from_array [true, true, true]
          [['a'], ['b'], ['c']]).bind
        WatchedBitfield.serialize).bind
      (fun s => WatchedBitfield.construct_and_resize s
        [['x'], ['a'], ['b'], ['c']])) =
      WatchedBitfield.construct_and_resize
        (['c'] ++ ':' :: natToChars 3 ++ ':' :: b64encode [7])
        [['x'], ['a'], ['b'], ['c']] := rfl
  rw [h0, hrun]
  have g0 := hget 0 (by decide)
  have g1 := hget 1 (by decide)
  have g2 := hget 2 (by decide)
  have g3 := hget 3 (by decide)
  show Except.ok (bf.getN 0, bf.getN 1, bf.getN 2, bf.getN 3) =
    .ok (false, true, true, true)
  rw [g0, g1, g2, g3]
  decide

/-! ### Claim C3: watched-threshold scenario -/

/-- C3 counterexample: on a fresh entry with `duration = 3600`, the calls
`update_progress(2500, 3600, "v1")` then `update_progress(2520, 3600, "v1")`
do not produce `flaggedWatched = 1` and `timesWatched = 1`: the first call
switches the current video and resets `timeWatched` to zero, so the second
call accrues only the 20-second delta, far below the 2520-second
threshold. -/
theorem c3_counterexample :
    Except.map (fun l => (l.state.flaggedWatched, l.state.timesWatched))
      ((StremioLibrary.update_progress
          { _id := ['i'], state := { duration := 3600 } } 0 2500 3600 ['v', '1']).bind
        (fun l => l.update_progress 1 2520 3600 ['v', '1'])) ≠ .ok (1, 1) := by
  decide

/-- C3 (amended): on a fresh entry with `duration = 3600`, after
`update_progress(2500, 3600, "v1")` then `update_progress(2520, 3600, "v1")`
the accrued `timeWatched` is 20 seconds (only the offset delta counts; the
first call switches video and resets the counter), which does not exceed
`3600 * 0.7 = 2520`, so `flaggedWatched = 0` and `timesWatched = 0`. -/
theorem c3_threshold_actual :
    Except.map (fun l => (l.state.timeWatched, l.state.flaggedWatched, l.state.timesWatched))
      ((StremioLibrary.update_progress
          { _id := ['i'], state := { duration := 3600 } } 0 2500 3600 ['v', '1']).bind
        (fun l => l.update_progress 1 2520 3600 ['v', '1'])) = .ok (20, 0, 0) := by
  decide

/-! ### Claim C4: delta-sync stale set -/

/-- Whether a remote `(id, mtime)` listing entry is stale for the store. -/
def isStale (store : Store) (i : (List Char) × Int) : Bool :=
  match storeLookup store i.1 with
  | none => true
  | some lib => decide (lib.modified_time < fromTimestampMillis i.2)

theorem outdatedIds_loop (store : Store) (meta : List ((List Char) × Int)) :
    ∀ acc : List (List Char),
      meta.foldl
        (fun acc i =>
          match storeLookup store i.1 with
          | none => acc ++ [i.1]
          | some lib =>
            if lib.modified_time < fromTimestampMillis i.2 then acc ++ [i.1] else acc)
        acc = acc ++ (meta.filter (isStale store)).map Prod.fst := by
  induction meta with
  | nil =>
    intro acc
    simp
  | cons p rest ih =>
    intro acc
    rw [List.foldl_cons, List.filter_cons]
    have hbody : (match storeLookup store p.1 with
        | none => acc ++ [p.1]
        | some lib =>
          if lib.modified_time < fromTimestampMillis p.2 then acc ++ [p.1] else acc) =
        if isStale store p then acc ++ [p.1] else acc := by
      unfold isStale
      cases storeLookup store p.1 with
      | none => simp
      | some lib =>
        dsimp only
        by_cases hlt : lib.modified_time < fromTimestampMillis p.2 <;> simp [hlt]
    rw [hbody]
    by_cases hstale : isStale store p = true
    · rw [if_pos hstale, if_pos hstale, ih (acc ++ [p.1])]
      simp
    · rw [if_neg hstale, if_neg hstale]
      exact ih acc

theorem outdatedIds_eq (store : Store) (meta : List ((List Char) × Int)) :
    outdatedIds store meta = (meta.filter (isStale store)).map Prod.fst := by
  unfold outdatedIds
  rw [outdatedIds_loop store meta []]
  rfl

/-- C4: an id is collected for re-fetch iff it appears in the remote listing
and is missing locally or locally older than the remote time; on the
scenario store `{a: 100, b: 200}` and listing `[(a,100),(b,300),(c,50)]` the
stale set is exactly `[b, c]` and exactly those ids are fetched; and when
the stale set is empty, sync returns at once with no fetch and no write. -/
theorem c4_delta_sync :
    (∀ (store : Store) (meta : List ((List Char) × Int)) (id : List Char),
      id ∈ outdatedIds store meta ↔
        ∃ mt, (id, mt) ∈ meta ∧
          (storeLookup store id = none ∨
            ∃ lib, storeLookup store id = some lib ∧
              lib.modified_time < fromTimestampMillis mt)) ∧
    (outdatedIds
        [(['a'], { _id := ['a'], _mtime := some 100 }),
         (['b'], { _id := ['b'], _mtime := some 200 })]
        [(['a'], 100), (['b'], 300), (['c'], 50)] = [['b'], ['c']] ∧
      ∀ remote,
        (update_data_store
          [(['a'], { _id := ['a'], _mtime := some 100 }),
           (['b'], { _id := ['b'], _mtime := some 200 })]
          [(['a'], 100), (['b'], 300), (['c'], 50)] remote).fetched =
          some [['b'], ['c']]) ∧
    (∀ (store : Store) (meta : List ((List Char) × Int)) remote,
      outdatedIds store meta = [] →
      update_data_store store meta remote =
        { store := store, fetched := none, wrote := false }) := by
  have hscenario : outdatedIds
      [(['a'], { _id := ['a'], _mtime := some 100 }),
       (['b'], { _id := ['b'], _mtime := some 200 })]
      [(['a'], 100), (['b'], 300), (['c'], 50)] = [['b'], ['c']] := by
    decide
  have hfetched : ∀ remote : List (List Char) → List StremioLibrary,
      (update_data_store
        [(['a'], { _id := ['a'], _mtime := some 100 }),
         (['b'], { _id := ['b'], _mtime := some 200 })]
        [(['a'], 100), (['b'], 300), (['c'], 50)] remote).fetched =
        some [['b'], ['c']] := fun _ => rfl
  refine ⟨?_, ⟨hscenario, hfetched⟩, ?_⟩
  · intro store meta id
    rw [outdatedIds_eq]
    simp only [List.mem_map, List.mem_filter]
    constructor
    · rintro ⟨⟨id2, mt⟩, ⟨hmem, hstale⟩, rfl⟩
      refine ⟨mt, hmem, ?_⟩
      unfold isStale at hstale
      cases hl : storeLookup store id2 with
      | none => exact Or.inl rfl
      | some lib =>
        rw [hl] at hstale
        exact Or.inr ⟨lib, rfl, by simpa using hstale⟩
    · rintro ⟨mt, hmem, hcond⟩
      refine ⟨(id, mt), ⟨hmem, ?_⟩, rfl⟩
      unfold isStale
      rcases hcond with h | ⟨lib, hl, hlt⟩
      · rw [h]
      · rw [hl]
        simpa using hlt
  · intro store meta remote h
    unfold update_data_store
    rw [h]
    rfl

/-- C4 witness: the empty-stale-set early return at a concrete input. -/
theorem c4_delta_sync_witness :
    update_data_store [] [] (fun _ => []) =
      { store := [], fetched := none, wrote := false } :=
  c4_delta_sync.2.2 [] [] (fun _ => []) rfl

/-! ### Claim C5: push durability ordering -/

theorem storeLookup_storeSet (s : Store) (k : List Char) (v : StremioLibrary) :
    storeLookup (storeSet s k v) k = some v := by
  induction s with
  | nil => simp [storeSet, storeLookup]
  | cons p rest ih =>
    unfold storeSet
    by_cases h : p.1 = k
    · rw [if_pos h]
      simp [storeLookup]
    · rw [if_neg h]
      unfold storeLookup
      rw [if_neg h]
      exact ih

theorem mem_values_storeSet (s : Store) (k : List Char) (v : StremioLibrary) :
    v ∈ (storeSet s k v).map Prod.snd := by
  induction s with
  | nil => simp [storeSet]
  | cons p rest ih =>
    unfold storeSet
    by_cases h : p.1 = k
    · rw [if_pos h]
      simp only [List.map_cons]
      exact List.mem_cons_self _ _
    · rw [if_neg h]
      simp only [List.map_cons, List.mem_cons]
      exact Or.inr ih

/-- C5: `set_data` stores the entry in the in-memory map and emits the
local-file write (whose contents contain the entry's new state) strictly
before the remote upload; the upload is the final effect and — since
`_post` swallows transport errors — cannot undo the earlier local state. -/
theorem c5_push_durability :
    ∀ (store : Store) (data : StremioLibrary),
      ∃ contents,
        set_data store data =
          (storeSet store data._id data,
            [.fileWrite contents, .remotePost [data]]) ∧
        storeLookup (storeSet store data._id data) data._id = some data ∧
        data ∈ contents := by
  intro store data
  exact ⟨(storeSet store data._id data).map Prod.snd, rfl,
    storeLookup_storeSet store data._id data,
    mem_values_storeSet store data._id data⟩

/-! ### Claims C6 and C7: negative indices on BitField8 -/

/-- C6 (code bug): `set(-1, True)` on a one-byte bitfield does not raise an
`IndexError` as the spec requires for negative indices — Python's negative
indexing wraps to the last byte, so the call succeeds and sets bit 7;
`set` only raises once the byte index falls outside `[-len, len)`, as for
`set(8, True)` (byte index 1) on the same buffer. -/
theorem c6_negative_set_wraps :
    (BitField8.mk 8 [0]).set (-1) true = .ok ⟨8, [128]⟩ ∧
    (BitField8.mk 8 [0]).set 8 true = .error .indexError := by
  decide

/-- C7 (code bug): `get(-3)` on a one-byte bitfield holding `0x20` returns
`True` (the negative byte index wraps to the last byte, bit 5), not the
`False` the spec requires for every out-of-range index; on an empty buffer
`get(-1)` even raises `IndexError`.  Reads at or above the capacity do
return `False`. -/
theorem c7_negative_get_wraps :
    (BitField8.mk 8 [32]).get (-3) = .ok true ∧
    (BitField8.mk 0 []).get (-1) = .error .indexError ∧
    (BitField8.mk 8 [32]).get 8 = .ok false := by
  decide

/-! ### Claim C8: malformed serialized strings -/

theorem car_invalid_of_count (s : List Char) (ids : List (List Char))
    (h : s.count ':' < 2) :
    WatchedBitfield.construct_and_resize s ids = .error .invalidComponents := by
  unfold WatchedBitfield.construct_and_resize
  dsimp only
  rw [if_pos (by rw [splitColon_length]; omega)]

theorem car_ne_invalid_of_count (s : List Char) (ids : List (List Char))
    (h : 2 ≤ s.count ':') :
    WatchedBitfield.construct_and_resize s ids ≠ .error .invalidComponents := by
  unfold WatchedBitfield.construct_and_resize
  dsimp only
  rw [if_neg (by rw [splitColon_length]; omega)]
  have hrl : 3 ≤ (splitColon s).reverse.length := by
    rw [List.length_reverse, splitColon_length]
    omega
  cases hrev : (splitColon s).reverse with
  | nil =>
    rw [hrev] at hrl
    simp at hrl
  | cons a t =>
    cases t with
    | nil =>
      rw [hrev] at hrl
      simp at hrl
    | cons b t2 =>
      dsimp only
      cases hpi : parseInt b with
      | none => simp
      | some al => exact resize_core_not_invalid _ _ _ _

/-- C8: `construct_and_resize` raises the component-count error
(a `ValueError` in Python, the spec's `FormatError`) exactly when the input
has fewer than two colons, i.e. fewer than three colon-delimited fields;
inputs with three or more fields are never rejected by this check. -/
theorem c8_malformed_iff (s : List Char) (ids : List (List Char)) :
    WatchedBitfield.construct_and_resize s ids = .error .invalidComponents ↔
      s.count ':' < 2 := by
  constructor
  · intro h
    by_contra hc
    exact car_ne_invalid_of_count s ids (by omega) h
  · exact car_invalid_of_count s ids

/-! ### Claim C9: serialize anchoring and the all-false quirk -/

/-- C9: `serialize` anchors at `max(0, lastIndexOf(true))` with length field
that index plus one: when no bit is set it produces
`"<ids[0]>:1:<base64(packed)>"`, and when `k` is the highest set bit it
produces `"<ids[k]>:<k+1>:<base64(packed)>"`. -/
theorem c9_serialize_anchor (wb : WatchedBitfield) :
    ((∀ i, i < wb.bitfield.length.toNat → wb.bitfield.getN i = false) →
      0 < wb.video_ids.length →
      wb.serialize = .ok (wb.video_ids.getD 0 [] ++ ':' :: natToChars 1 ++ ':' ::
        b64encode (zlibCompress wb.bitfield.values))) ∧
    (∀ k, k < wb.bitfield.length.toNat → k < wb.video_ids.length →
      wb.bitfield.getN k = true →
      (∀ j, k < j → j < wb.bitfield.length.toNat → wb.bitfield.getN j = false) →
      wb.serialize = .ok (wb.video_ids.getD k [] ++ ':' :: natToChars (k + 1) ++ ':' ::
        b64encode (zlibCompress wb.bitfield.values))) := by
  constructor
  · intro hall hpos
    have hli : wb.bitfield.last_index_of true = -1 := by
      unfold BitField8.last_index_of
      exact BitField8.lastIndexAux_notFound wb.bitfield true wb.bitfield.length.toNat
        (fun i hi => by rw [hall i hi]; simp)
    exact wb.serialize_eq 0 (by rw [hli]; rfl) hpos
  · intro k hk hkid hset hafter
    have hli : wb.bitfield.last_index_of true = (k : Int) := by
      unfold BitField8.last_index_of
      exact BitField8.lastIndexAux_found wb.bitfield true wb.bitfield.length.toNat k hk hset
        (fun j hj1 hj2 => by rw [hafter j hj1 hj2]; simp)
    exact wb.serialize_eq k (by rw [hli]; omega) hkid

/-- C9 witness: an all-false two-bit bitfield over ids `["a", "b"]`
serializes anchored to `"a"` with length field 1. -/
theorem c9_serialize_anchor_witness :
    (WatchedBitfield.mk ⟨2, [0]⟩ [['a'], ['b']]).serialize =
      .ok (['a'] ++ ':' :: natToChars 1 ++ ':' :: b64encode (zlibCompress [0])) :=
  (c9_serialize_anchor (WatchedBitfield.mk ⟨2, [0]⟩ [['a'], ['b']])).1
    (by decide) (by decide)

/-! ### Claim C10: serialize requires a non-empty id list -/

/-- C10: `serialize` is undefined on an empty id list: the anchor index
falls back to 0 and the id indexing raises `IndexError`; in particular this
happens for the bitfield built over an empty id list. -/
theorem c10_serialize_empty_ids (wb : WatchedBitfield) (h : wb.video_ids = []) :
    wb.serialize = .error .indexError :=
  WatchedBitfield.serialize_nil wb h

/-- C10 witness: serializing the bitfield built from an empty boolean list
over an empty id list raises the index error. -/
theorem c10_serialize_empty_ids_witness :
    (WatchedBitfield.construct_from_array [] []).bind WatchedBitfield.serialize =
      .error .indexError :=
  c10_serialize_empty_ids ⟨BitField8.create 0, []⟩ rfl

end Nas
